import Mathlib

/-!
Shallow embedding of the kubernetes watch-cache core
(`btree_store.go` and the watch-cache file) for checking the
natural-language specification against the code.

Conventions of the embedding:
- Go `uint64` resource versions are modelled as `Nat`; the single place
  where uint64 wrap-around is observable (`oldest - 1` in
  `getAllEventsSinceLocked`) is modelled explicitly via `usub1`.
- Go `time.Time` / `time.Duration` are modelled as `Int` (seconds);
  only differences and comparisons with `eventFreshDuration` occur.
- Go byte-wise string comparison and byte prefixes coincide with
  character-wise comparison on valid UTF-8, which is what `lexLt` and
  `listStartsWith` implement over `String.data`.
- The opaque `runtime.Object` payload is modelled as `Nat`.
- The injected `keyFunc` is `storeElementKey` (the wiring intended by the
  source, cf. the commented-out `cache.NewIndexer(storeElementKey, ...)`);
  it is total, so its error path cannot fire.  `getAttrsFunc` results are
  carried inside `StoreElement`.  The `indexers` set is empty in the
  watch-cache instantiation (`newBtreeStore` is called without indexers),
  so `updateIndicesLocked` is a no-op and is elided.
- Go type-assertion failures (`obj not a storeElement`) cannot arise in
  the typed model and are elided.
-/

namespace WatchCacheModel

/-- Decidable equality for `Except`, used to evaluate concrete results. -/
instance {ε α : Type} [DecidableEq ε] [DecidableEq α] : DecidableEq (Except ε α) := fun a b =>
  match a, b with
  | .ok x, .ok y =>
    if h : x = y then .isTrue (by rw [h]) else .isFalse (by intro hh; injection hh; contradiction)
  | .error x, .error y =>
    if h : x = y then .isTrue (by rw [h]) else .isFalse (by intro hh; injection hh; contradiction)
  | .ok _, .error _ => .isFalse (by intro h; exact Except.noConfusion h)
  | .error _, .ok _ => .isFalse (by intro h; exact Except.noConfusion h)

/-- Byte-wise lexicographic strict order on character lists, mirroring Go
string `<` (UTF-8 byte order equals scalar-value order). -/
def lexLt : List Char → List Char → Bool
  | [], [] => false
  | [], _ :: _ => true
  | _ :: _, [] => false
  | a :: as, b :: bs => if a < b then true else if b < a then false else lexLt as bs

/-- Mirrors Go `strings.HasPrefix` on the underlying characters. -/
def listStartsWith : List Char → List Char → Bool
  | [], _ => true
  | _ :: _, [] => false
  | p :: ps, s :: ss => if p = s then listStartsWith ps ss else false

/-- Go string `<` used by `storeElement.Less`. -/
def strLt (a b : String) : Bool := lexLt a.data b.data

/-- Go `strings.HasPrefix p s` (does `s` start with `p`). -/
def strStartsWith (p s : String) : Bool := listStartsWith p.data s.data

/-- Mirrors `storeElement` of the source: precomputed key, payload,
labels and fields. -/
structure StoreElement where
  Key : String
  Object : Nat
  Labels : List (String × String)
  Fields : List (String × String)
  deriving DecidableEq, Repr

/-- The btree is modelled as its ascending-key item list; `storeElement.Less`
orders items by `Key` only, so items are "btree-equal" iff their keys are. -/
def Tree : Type := List StoreElement

instance : DecidableEq Tree := by
  unfold Tree
  infer_instance

instance : Repr Tree := by
  unfold Tree
  infer_instance

/-- Sortedness invariant of the btree item list. -/
def TreeSorted (t : Tree) : Prop := List.Pairwise (fun a b => strLt a.Key b.Key = true) t

/-- Mirrors `btree.ReplaceOrInsert`: insert keeping key order, replacing the
item with an equal key; returns the replaced item when present. -/
def treeReplaceOrInsert : Tree → StoreElement → Tree × Option StoreElement
  | [], e => ([e], none)
  | x :: xs, e =>
    if strLt e.Key x.Key then (e :: x :: xs, none)
    else if strLt x.Key e.Key then
      let r := treeReplaceOrInsert xs e
      (x :: r.1, r.2)
    else (e :: xs, some x)

/-- Mirrors `btree.Delete`: remove the item with the given key, returning it. -/
def treeDelete : Tree → String → Tree × Option StoreElement
  | [], _ => ([], none)
  | x :: xs, k =>
    if strLt k x.Key then (x :: xs, none)
    else if strLt x.Key k then
      let r := treeDelete xs k
      (x :: r.1, r.2)
    else (xs, some x)

/-- Mirrors `btree.Get` by key (items compare by key). -/
def treeFind : Tree → String → Option StoreElement
  | [], _ => none
  | x :: xs, k =>
    if strLt k x.Key then none
    else if strLt x.Key k then treeFind xs k
    else some x

/-- Mirrors `btreeStore.addOrUpdateLocked` (without the unreachable nil /
type-assertion errors and the empty indexer bookkeeping). -/
def addOrUpdate (t : Tree) (e : StoreElement) : Tree :=
  (treeReplaceOrInsert t e).1

/-- Mirrors `btreeStore.Delete`: `updateIndicesLocked` is a no-op with no
indexers; a missing item yields the error `obj does not exist`. -/
def storeDelete (t : Tree) (e : StoreElement) : Except String Tree :=
  let r := treeDelete t e.Key
  match r.2 with
  | some _ => .ok r.1
  | none => .error "obj does not exist"

/-- Mirrors `btreeStore.Get`.  Faithful to the source: the function returns
`item, false, nil` on line 131, i.e. the `exists` flag is `false` even when
the item was found. -/
def btreeGet (t : Tree) (e : StoreElement) : Option StoreElement × Bool :=
  match treeFind t e.Key with
  | none => (none, false)
  | some item => (some item, false)

/-- Mirrors `btreeStore.getByKeyLocked` / `GetByKey`: an `Ascend` scan that
stops at the first item whose key equals the argument. -/
def getByKey (t : Tree) (key : String) : Option StoreElement × Bool :=
  match t.find? (fun e => e.Key = key) with
  | some item => (some item, true)
  | none => (none, false)

/-- Mirrors `btreeStore.List`: ascending iteration of all items. -/
def treeList (t : Tree) : List StoreElement := t

/-- Mirrors `btreeStore.Replace`: clear, then `addOrUpdateLocked` each. -/
def storeReplace (objs : List StoreElement) : Tree :=
  objs.foldl addOrUpdate ([] : Tree)

/-- Inner loop of `LimitPrefixRead`: the `AscendGreaterOrEqual` callback with
the retrieved-elements counter.  The counter check (`elementsRetrieved ==
limit`) precedes the `HasPrefix` check, exactly as in the source. -/
def limitPrefixLoop (limit : Int) (key : String) : List StoreElement → Int → List StoreElement
  | [], _ => []
  | e :: es, n =>
    if n = limit then []
    else if !strStartsWith key e.Key then []
    else e :: limitPrefixLoop limit key es (n + 1)

/-- Mirrors `btreeStore.LimitPrefixRead`: seek to the first item with key
`≥ key`, then iterate while the prefix matches, stopping at `limit`. -/
def limitPrefixRead (t : Tree) (limit : Int) (key : String) : List StoreElement :=
  limitPrefixLoop limit key (t.dropWhile (fun e => strLt e.Key key)) 0

/-- Mirrors `blockTimeout = 3 * time.Second` (in seconds). -/
def blockTimeout : Nat := 3

/-- Mirrors `resourceVersionTooHighRetrySeconds = 1`. -/
def resourceVersionTooHighRetrySeconds : Nat := 1

/-- Mirrors `eventFreshDuration = 75 * time.Second` (in seconds). -/
def eventFreshDuration : Int := 75

/-- Mirrors `defaultLowerBoundCapacity = 100`. -/
def defaultLowerBoundCapacity : Nat := 100

/-- Mirrors `defaultUpperBoundCapacity = 100 * 1024`. -/
def defaultUpperBoundCapacity : Nat := 100 * 1024

/-- Mirrors `watch.EventType` as used by the watch cache. -/
inductive EventType where
  | added
  | modified
  | deleted
  | bookmark
  deriving DecidableEq, Repr

/-- Mirrors `watchCacheEvent`. -/
structure WatchCacheEvent where
  type : EventType
  object : Nat
  objLabels : List (String × String)
  objFields : List (String × String)
  prevObject : Option Nat
  prevObjLabels : Option (List (String × String))
  prevObjFields : Option (List (String × String))
  key : String
  resourceVersion : Nat
  recordTime : Int
  deriving DecidableEq, Repr

/-- Lookup in the `continueCache` map (modelled as an association list whose
head entry shadows older entries with the same key). -/
def ccLookup (cc : List (Nat × Tree)) (rv : Nat) : Option Tree :=
  (cc.find? (fun p => p.1 = rv)).map (fun p => p.2)

/-- Mirrors `continueCache.cleanup`: delete the entry at exactly `rv`. -/
def ccCleanup (cc : List (Nat × Tree)) (rv : Nat) : List (Nat × Tree) :=
  cc.filter (fun p => p.1 ≠ rv)

/-- Mirrors the `watchCache` struct state protected by its lock (locks,
injected callbacks and metrics are elided; `continueCache` is inlined). -/
structure WatchCache where
  capacity : Nat
  upperBoundCapacity : Nat
  lowerBoundCapacity : Nat
  cache : List (Option WatchCacheEvent)
  startIndex : Nat
  endIndex : Nat
  store : Tree
  resourceVersion : Nat
  listResourceVersion : Nat
  continueCache : List (Nat × Tree)
  deriving DecidableEq, Repr

/-- Mirrors `newWatchCache`: ring of `defaultLowerBoundCapacity` empty slots. -/
def initialWatchCache : WatchCache where
  capacity := defaultLowerBoundCapacity
  upperBoundCapacity := defaultUpperBoundCapacity
  lowerBoundCapacity := defaultLowerBoundCapacity
  cache := List.replicate defaultLowerBoundCapacity none
  startIndex := 0
  endIndex := 0
  store := []
  resourceVersion := 0
  listResourceVersion := 0
  continueCache := []

/-- Reads ring slot `i % capacity`, i.e. Go `w.cache[i%w.capacity]`. -/
def ringGet (wc : WatchCache) (i : Nat) : Option WatchCacheEvent :=
  wc.cache.getD (i % wc.capacity) none

/-- Dereference of a ring slot.  In Go the slot is a pointer that is only
nil in states the code never reads from; the default is never relevant in
the theorems below. -/
def evGet (o : Option WatchCacheEvent) : WatchCacheEvent :=
  o.getD { type := .added, object := 0, objLabels := [], objFields := [],
           prevObject := none, prevObjLabels := none, prevObjFields := none,
           key := "", resourceVersion := 0, recordTime := 0 }

/-- Mirrors `watchCache.isCacheFullLocked`. -/
def isCacheFull (wc : WatchCache) : Bool :=
  wc.endIndex = wc.startIndex + wc.capacity

/-- Mirrors `watchCache.doCacheResizeLocked`: allocate a new slot array,
adjust `startIndex` when shrinking, and re-map the live window. -/
def doCacheResizeLocked (wc : WatchCache) (capacity : Nat) : WatchCache :=
  let startIndex' := if capacity < wc.capacity then wc.endIndex - capacity else wc.startIndex
  let newCache := (List.range' startIndex' (wc.endIndex - startIndex')).foldl
    (fun nc i => nc.set (i % capacity) (wc.cache.getD (i % wc.capacity) none))
    (List.replicate capacity (none : Option WatchCacheEvent))
  { wc with cache := newCache, startIndex := startIndex', capacity := capacity }

/-- Mirrors `watchCache.resizeCacheLocked`: grow by 2x (capped) when full and
the oldest event is fresh; else shrink by 2x (floored) when full and the event
a quarter-window back is stale. -/
def resizeCacheLocked (wc : WatchCache) (eventTime : Int) : WatchCache :=
  if isCacheFull wc &&
      decide (eventTime - (evGet (ringGet wc wc.startIndex)).recordTime < eventFreshDuration) then
    let capacity := min (wc.capacity * 2) wc.upperBoundCapacity
    if wc.capacity < capacity then doCacheResizeLocked wc capacity else wc
  else if isCacheFull wc &&
      decide (eventFreshDuration <
        eventTime - (evGet (ringGet wc (wc.endIndex - wc.capacity / 4))).recordTime) then
    let capacity := max (wc.capacity / 2) wc.lowerBoundCapacity
    if capacity < wc.capacity then doCacheResizeLocked wc capacity else wc
  else wc

/-- Mirrors `watchCache.updateCache`: resize, evict the oldest event (with
`continueCache.cleanup` at its resource version) when still full, then place
the event at `endIndex`. -/
def updateCache (wc : WatchCache) (event : WatchCacheEvent) : WatchCache :=
  let wc1 := resizeCacheLocked wc event.recordTime
  let wc2 :=
    if isCacheFull wc1 then
      let oldestRV := (evGet (ringGet wc1 wc1.startIndex)).resourceVersion
      { wc1 with continueCache := ccCleanup wc1.continueCache oldestRV,
                 startIndex := wc1.startIndex + 1 }
    else wc1
  { wc2 with cache := wc2.cache.set (wc2.endIndex % wc2.capacity) (some event),
             endIndex := wc2.endIndex + 1 }

/-- The store mutation selected by the mutator (`updateFunc` in the source):
`Add`/`Update` insert-or-replace, `Delete` removes.  `processEvent` is never
reached with a bookmark. -/
def storeUpdateFunc (t : Tree) : EventType → StoreElement → Except String Tree
  | .added, elem => .ok (addOrUpdate t elem)
  | .modified, elem => .ok (addOrUpdate t elem)
  | .deleted, elem => storeDelete t elem
  | .bookmark, _ => .ok t

/-- Mirrors `watchCache.processEvent` (the state mutation under the write
lock plus the deferred event-handler call).  Returns the post state, the
error (if any), and the list of event-handler invocations.  Faithful order:
previous-object lookup (through the `Get` whose `exists` flag is always
false), `updateCache`, advance `resourceVersion`, then the store mutation;
on store-mutation error the earlier mutations are kept and the handler is
not invoked. -/
def processEvent (wc : WatchCache) (ty : EventType) (elem : StoreElement)
    (rv : Nat) (now : Int) : WatchCache × Option String × List WatchCacheEvent :=
  let wcEvent0 : WatchCacheEvent :=
    { type := ty, object := elem.Object, objLabels := elem.Labels,
      objFields := elem.Fields, prevObject := none, prevObjLabels := none,
      prevObjFields := none, key := elem.Key, resourceVersion := rv, recordTime := now }
  let pr := btreeGet wc.store elem
  let wcEvent :=
    if pr.2 then
      match pr.1 with
      | some previousElem =>
        { wcEvent0 with prevObject := some previousElem.Object,
                        prevObjLabels := some previousElem.Labels,
                        prevObjFields := some previousElem.Fields }
      | none => wcEvent0
    else wcEvent0
  let wc1 := updateCache wc wcEvent
  let wc2 := { wc1 with resourceVersion := rv }
  match storeUpdateFunc wc2.store ty elem with
  | .ok st => ({ wc2 with store := st }, none, [wcEvent])
  | .error e => (wc2, some e, [])

/-- Mirrors `watchCache.Replace`: reset the ring window, replace the store,
set both resource versions.  Note that the `continueCache` is left untouched
and the slot array contents are not cleared. -/
def wcReplace (wc : WatchCache) (elems : List StoreElement) (rv : Nat) : WatchCache :=
  { wc with startIndex := 0, endIndex := 0, store := storeReplace elems,
            listResourceVersion := rv, resourceVersion := rv }

/-- Backtracking step of Go `path.Clean` for a `..` element when the buffer
can backtrack: `out.w--; for out.w > dotdot && out.index(out.w) != '/' {
out.w-- }`.  The buffer is kept reversed (`rev`), `c` is the character most
recently excluded from it. -/
def btAux (dotdot : Nat) : Char → List Char → List Char
  | c, rev =>
    if dotdot < rev.length ∧ c ≠ '/' then
      match rev with
      | [] => []
      | c2 :: rest => btAux dotdot c2 rest
    else rev

/-- The whole `..` backtrack (including the unconditional first `out.w--`). -/
def backtrack (rev : List Char) (dotdot : Nat) : List Char :=
  match rev with
  | [] => []
  | c :: rest => btAux dotdot c rest

/-- Main loop of Go `path.Clean` over the remaining input, with the output
buffer kept reversed and the `dotdot` barrier, mirroring the four cases of
the source: slash, `.` element, `..` element, and a normal element.  The
`fuel` argument only makes the recursion structural (each iteration consumes
at least one input character, so any `fuel ≥ input.length` gives the loop's
semantics); it has no counterpart in the source. -/
def cleanLoop : Nat → List Char → List Char → Nat → Bool → List Char
  | _, [], rev, _, _ => rev
  | 0, _ :: _, rev, _, _ => rev
  | f + 1, c :: rest, rev, dotdot, rooted =>
    if c = '/' then cleanLoop f rest rev dotdot rooted
    else if c = '.' ∧ (rest = [] ∨ rest.head? = some '/') then
      cleanLoop f rest rev dotdot rooted
    else if c = '.' ∧ rest.head? = some '.' ∧ (rest.tail = [] ∨ rest.tail.head? = some '/') then
      if dotdot < rev.length then cleanLoop f rest.tail (backtrack rev dotdot) dotdot rooted
      else if !rooted then
        let rev1 := if 0 < rev.length then '/' :: rev else rev
        let rev2 := '.' :: '.' :: rev1
        cleanLoop f rest.tail rev2 rev2.length rooted
      else cleanLoop f rest.tail rev dotdot rooted
    else
      let rev1 := if (rooted = true ∧ rev.length ≠ 1) ∨ (rooted = false ∧ rev.length ≠ 0)
        then '/' :: rev else rev
      cleanLoop f ((c :: rest).dropWhile (fun x => x ≠ '/'))
        (((c :: rest).takeWhile (fun x => x ≠ '/')).reverse ++ rev1) dotdot rooted

/-- Mirrors Go `path.Clean` (`path` package): lexical cleaning, `"."` for an
empty result, rooted paths keep their leading slash. -/
def pathClean (p : String) : String :=
  if p = "" then "."
  else
    let chars := p.data
    let rooted : Bool := chars.head? = some '/'
    let input := if rooted then chars.tail else chars
    let rev0 : List Char := if rooted then ['/'] else []
    let dd : Nat := if rooted then 1 else 0
    let rev := cleanLoop chars.length input rev0 dd rooted
    if rev = [] then "." else String.mk rev.reverse

/-- Mirrors the `continueToken` struct (fields `v`, `rv`, `start`) after
base64/JSON decoding, which is external library code. -/
structure ContinueToken where
  apiVersion : String
  resourceVersion : Int
  startKey : String
  deriving DecidableEq, Repr

/-- Mirrors `decodeContinue` after the base64/JSON step: version dispatch,
zero-rv and empty-start rejection, slash prepension, `path.Clean`
canonicality check, and the `keyPrefix + cleaned[1:]` result. -/
def decodeContinueTok (tok : ContinueToken) (keyPfx : String) : Except String (String × Int) :=
  if tok.apiVersion = "meta.k8s.io/v1" then
    if tok.resourceVersion = 0 then
      .error "continue key is not valid: incorrect encoded start resourceVersion (version meta.k8s.io/v1)"
    else if tok.startKey = "" then
      .error "continue key is not valid: encoded start key empty (version meta.k8s.io/v1)"
    else
      let key := if strStartsWith "/" tok.startKey then tok.startKey else "/" ++ tok.startKey
      let cleaned := pathClean key
      if cleaned = key then .ok (keyPfx ++ cleaned.drop 1, tok.resourceVersion)
      else .error ("continue key is not valid: " ++ tok.startKey)
  else
    .error ("continue key is not valid: server does not recognize this encoded version "
      ++ tok.apiVersion)

/-- Error taxonomy at the watch-cache boundary. -/
inductive KErr where
  | resourceExpired (msg : String)
  | badRequest (msg : String)
  | other (msg : String)
  deriving DecidableEq, Repr

/-- Go `strings.HasSuffix(key, "/")`. -/
def strEndsWithSlash (key : String) : Bool := key.data.getLast? = some '/'

/-- Mirrors `watchCache.WaitUntilFreshAndList` after the freshness gate
returned successfully (the gate itself is modelled by
`waitUntilFreshAndBlock`).  `resourceVersion` is the requested resource
version argument; `continueTok` models `pred.Continue` (`none` for the empty
string, `some tok` for a token that base64/JSON-decodes to `tok`).  Returns
the post state (the registration mutates `continueCache`) and the result. -/
def waitUntilFreshAndList (wc : WatchCache) (resourceVersion : Nat) (key : String)
    (limit : Int) (continueTok : Option ContinueToken) :
    WatchCache × Except KErr (List StoreElement × Nat) :=
  if ¬ 0 < limit then (wc, .ok (treeList wc.store, wc.resourceVersion))
  else
    match continueTok with
    | some tok =>
      match ccLookup wc.continueCache resourceVersion with
      | none =>
        (wc, .error (.resourceExpired ("too old resource version: " ++ toString resourceVersion)))
      | some storeClone =>
        let key1 := if strEndsWithSlash key then key else key ++ "/"
        match decodeContinueTok tok key1 with
        | .error e => (wc, .error (.badRequest ("invalid continue token: " ++ e)))
        | .ok ck => (wc, .ok (limitPrefixRead storeClone limit ck.1, wc.resourceVersion))
    | none =>
      let storeClone := wc.store
      let wc1 := { wc with continueCache := (resourceVersion, storeClone) :: wc.continueCache }
      let key1 := if strEndsWithSlash key then key else key ++ "/"
      (wc1, .ok (limitPrefixRead storeClone limit key1, wc1.resourceVersion))

/-- One observation of the protected state at a loop-head evaluation of the
freshness gate: the advertised resource version and the elapsed time (in
seconds) since the gate was entered. -/
structure GateObs where
  rv : Nat
  elapsed : Nat
  deriving DecidableEq, Repr

/-- Outcome of the freshness gate. -/
inductive GateResult where
  | success
  | tooLargeResourceVersion (requested current retryAfterSeconds : Nat)
  deriving DecidableEq, Repr

/-- The gate's wait loop (`for w.resourceVersion < resourceVersion { ... }`):
each observation is one evaluation of the loop head; `none` means the trace
ended while the gate was still waiting on the condition variable. -/
def gateLoop (resourceVersion : Nat) : List GateObs → Option GateResult
  | [] => none
  | o :: rest =>
    if o.rv < resourceVersion then
      if blockTimeout ≤ o.elapsed then
        some (.tooLargeResourceVersion resourceVersion o.rv resourceVersionTooHighRetrySeconds)
      else gateLoop resourceVersion rest
    else some .success

/-- Mirrors `watchCache.waitUntilFreshAndBlock` over an observation trace:
the first component records whether the wake-up timer goroutine was
scheduled (only for `resourceVersion > 0`), the second the loop outcome. -/
def waitUntilFreshAndBlock (resourceVersion : Nat) (obs : List GateObs) :
    Bool × Option GateResult :=
  (decide (0 < resourceVersion), gateLoop resourceVersion obs)

/-- The interval handed to watchers: either synthesized from the store
(`resourceVersion == 0`) or a window `[startIndex, endIndex)` of the ring. -/
inductive CacheInterval where
  | fromStore (resourceVersion : Nat) (elems : List StoreElement)
  | ring (startIndex endIndex : Nat)
  deriving DecidableEq, Repr

/-- Mirrors Go `sort.Search`: binary search for the smallest `i` in `[i, j)`
with `f i = true` (assuming `f` monotone), `j` when there is none.  The
`fuel` argument only makes the halving recursion structural (each step
shrinks the interval, so any `fuel ≥ j - i` gives the search's semantics). -/
def sortSearchGo : Nat → (Nat → Bool) → Nat → Nat → Nat
  | 0, _, i, _ => i
  | fuel + 1, f, i, j =>
    if i < j then
      let m := (i + j) / 2
      if f m then sortSearchGo fuel f i m else sortSearchGo fuel f (m + 1) j
    else i

/-- `sort.Search f n` over `[0, n)`. -/
def sortSearch (f : Nat → Bool) (n : Nat) : Nat := sortSearchGo n f 0 n

/-- Wrap-around `n - 1` on uint64, for the `oldest - 1` subtraction. -/
def usub1 (n : Nat) : Nat := if n = 0 then 2 ^ 64 - 1 else n - 1

/-- Mirrors `watchCache.getAllEventsSinceLocked`: compute the oldest
deliverable resource version, special-case `resourceVersion == 0`, reject
out-of-window requests with `ResourceExpired`, and otherwise binary-search
the ring window. -/
def getAllEventsSinceLocked (wc : WatchCache) (resourceVersion : Nat) :
    Except KErr CacheInterval :=
  let size := wc.endIndex - wc.startIndex
  let oldestRes : Except KErr Nat :=
    if 0 < wc.listResourceVersion ∧ wc.startIndex = 0 then .ok (wc.listResourceVersion + 1)
    else if 0 < size then .ok (evGet (ringGet wc wc.startIndex)).resourceVersion
    else .error (.other "watch cache isn't correctly initialized")
  match oldestRes with
  | .error e => .error e
  | .ok oldest =>
    if resourceVersion = 0 then
      .ok (.fromStore wc.resourceVersion (treeList wc.store))
    else if resourceVersion < usub1 oldest then
      .error (.resourceExpired ("too old resource version: " ++ toString resourceVersion
        ++ " (" ++ toString (usub1 oldest) ++ ")"))
    else
      let f := fun i =>
        decide (resourceVersion < (evGet (ringGet wc (wc.startIndex + i))).resourceVersion)
      .ok (.ring (wc.startIndex + sortSearch f size) wc.endIndex)

/-- The ingestor- and reader-driven operations that mutate watch-cache
state, for stating invariants over operation sequences. -/
inductive WCOp where
  | event (ty : EventType) (elem : StoreElement) (rv : Nat) (now : Int)
  | replace (elems : List StoreElement) (rv : Nat)
  | updateRV (rv : Nat)
  | listPage (requested : Nat) (key : String) (limit : Int) (tok : Option ContinueToken)
  deriving DecidableEq, Repr

/-- State transition of one operation (results discarded). -/
def applyOp (wc : WatchCache) : WCOp → WatchCache
  | .event ty elem rv now => (processEvent wc ty elem rv now).1
  | .replace elems rv => wcReplace wc elems rv
  | .updateRV rv => { wc with resourceVersion := rv }
  | .listPage requested key limit tok => (waitUntilFreshAndList wc requested key limit tok).1

/-- Run a sequence of operations from a state. -/
def runOps (wc : WatchCache) (ops : List WCOp) : WatchCache := ops.foldl applyOp wc

/-- The live events of the ring, oldest first: positions
`[startIndex, endIndex)` read through `i % capacity`. -/
def windowEvents (wc : WatchCache) : List WatchCacheEvent :=
  (List.range (wc.endIndex - wc.startIndex)).map (fun i => evGet (ringGet wc (wc.startIndex + i)))

/-- Per-operation well-formedness of the inputs the environment supplies:
the ingestor delivers non-decreasing resource versions and the freshness
gate admits a paginated list only once the advertised resource version has
caught up with the requested one. -/
def opMonotone (wc : WatchCache) : WCOp → Bool
  | .event _ _ rv _ => wc.resourceVersion ≤ rv
  | .replace _ rv => wc.resourceVersion ≤ rv
  | .updateRV rv => wc.resourceVersion ≤ rv
  | .listPage requested _ _ _ => requested ≤ wc.resourceVersion

/-- `opMonotone` holding along a whole run. -/
def opsMonotone : WatchCache → List WCOp → Bool
  | _, [] => true
  | wc, op :: ops => opMonotone wc op && opsMonotone (applyOp wc op) ops

/-- One `Add` of the C4 scenario: key `"k" ++ rv`, all record times equal. -/
def c4Add (wc : WatchCache) (i : Nat) : WatchCache :=
  (processEvent wc .added ⟨"k" ++ toString (100 + i), 100 + i, [], []⟩ (100 + i) 0).1

/-- Scenario start: fresh cache with a ContinueCache entry keyed at rv 100. -/
def c4Start : WatchCache := { initialWatchCache with continueCache := [(100, [])] }

/-- The ring filled to its initial capacity by 100 Adds at rv 100..199. -/
def c4Filled : WatchCache := (List.range 100).foldl c4Add c4Start

/-- The state after one more Add at rv 200 whose record time is within the
freshness window of the oldest retained event. -/
def c4After : WatchCache := (processEvent c4Filled .added ⟨"k200", 200, [], []⟩ 200 0).1

/-- C5 scenario: a fresh list installs 1 record at rv 10 (ring cleared),
then a paginated list at the same rv registers a snapshot. -/
def c5Listed : WatchCache :=
  runOps initialWatchCache [.replace [⟨"/a", 1, [], []⟩] 10, .listPage 10 "/" 1 none]

/-- C2 scenario: advertised rv 20, one record, empty ContinueCache. -/
def c2StateA : WatchCache :=
  { initialWatchCache with resourceVersion := 20, store := [⟨"/a", 1, [], []⟩] }

/-- C2 scenario: advertised rv 20 with a ContinueCache entry keyed 999. -/
def c2StateB : WatchCache :=
  { initialWatchCache with resourceVersion := 20, continueCache := [(999, [⟨"/a", 1, [], []⟩])] }

/-- C6 witness scenario: fresh list at rv 10 followed by two Adds. -/
def c6State : WatchCache :=
  runOps initialWatchCache
    [.replace [] 10, .event .added ⟨"a", 1, [], []⟩ 11 0, .event .added ⟨"b", 2, [], []⟩ 12 0]

/-- The capacity invariant: bounds fields at their defaults and capacity of
the form 100 * 2^k within [100, 102400]. -/
def CapInv (wc : WatchCache) : Prop :=
  wc.lowerBoundCapacity = 100 ∧ wc.upperBoundCapacity = 102400 ∧
  ∃ k, k ≤ 10 ∧ wc.capacity = 100 * 2 ^ k

/-! ### Claim C1 -/

/-- Claim C1 (code bug): after `Add(r)`, `Get(r.key)` does return the record,
but the presence flag is `false` although the record is in the store
(`btreeStore.Get` returns `item, false, nil`); the key-based lookup
`GetByKey` on the same state does report presence.  This refutes "the
presence flag returned by Get is true exactly when a record with that key is
in the store". -/
theorem c1_get_after_add_reports_absent :
    let e : StoreElement := ⟨"a", 1, [], []⟩
    let t := addOrUpdate ([] : Tree) e
    treeFind t "a" = some e ∧ btreeGet t e = (some e, false) ∧ getByKey t "a" = (some e, true) := by
  decide

/-! ### Claim C10 -/

/-- Claim C10: `watchCache.Delete` of an absent key fails, but by the time
the error is returned the Deleted event has been appended to the ring and
the advertised resource version has advanced to the event's RV, while the
event handler was never invoked: the error path is not atomic. -/
theorem c10_delete_error_after_mutation :
    let el : StoreElement := ⟨"/a", 1, [], []⟩
    let r := processEvent initialWatchCache .deleted el 5 0
    r.2.1 = some "obj does not exist" ∧
    r.2.2 = [] ∧
    r.1.resourceVersion = 5 ∧
    r.1.startIndex = 0 ∧
    r.1.endIndex = 1 ∧
    (evGet (ringGet r.1 0)).type = .deleted ∧
    (evGet (ringGet r.1 0)).resourceVersion = 5 ∧
    (evGet (ringGet r.1 0)).key = "/a" := by
  decide

/-! ### Claim C4 -/

set_option maxRecDepth 40000 in
/-- Claim C4 is false on the code: the append grows capacity to 200, but
`startIndex` does not advance (it stays 0, not 1) and the ContinueCache
entry keyed at rv 100 is not removed. -/
theorem c4_counterexample :
    c4Filled.capacity = 100 ∧ c4Filled.startIndex = 0 ∧ c4Filled.endIndex = 100 ∧
    c4After.capacity = 200 ∧
    ¬ c4After.startIndex = 1 ∧
    ¬ (ccLookup c4After.continueCache 100).isSome = false := by
  decide

set_option maxRecDepth 40000 in
/-- Claim C4 amended: after growing, the ring is no longer full, so no
eviction happens: `startIndex` stays 0, the pre-growth oldest event (rv 100)
is retained, the ContinueCache entry at rv 100 survives, and the new event
lands at position 100. -/
theorem c4_grow_keeps_oldest :
    c4After.capacity = 200 ∧
    c4After.startIndex = 0 ∧
    c4After.endIndex = 101 ∧
    (evGet (ringGet c4After 0)).resourceVersion = 100 ∧
    ccLookup c4After.continueCache 100 = some [] ∧
    (evGet (ringGet c4After 100)).resourceVersion = 200 := by
  decide

/-! ### Claim C5 -/

theorem doCacheResize_cc (wc : WatchCache) (c : Nat) :
    (doCacheResizeLocked wc c).continueCache = wc.continueCache := rfl

theorem resize_cc (wc : WatchCache) (t : Int) :
    (resizeCacheLocked wc t).continueCache = wc.continueCache := by
  simp only [resizeCacheLocked, doCacheResizeLocked]
  split_ifs <;> rfl

theorem updateCache_cc_sub (wc : WatchCache) (e : WatchCacheEvent) (p : Nat × Tree)
    (h : p ∈ (updateCache wc e).continueCache) : p ∈ wc.continueCache := by
  simp only [updateCache] at h
  rw [← resize_cc wc e.recordTime]
  split at h
  · exact (List.mem_filter.mp h).1
  · exact h

theorem processEvent_rv (wc : WatchCache) (ty : EventType) (e : StoreElement) (rv : Nat)
    (now : Int) : (processEvent wc ty e rv now).1.resourceVersion = rv := by
  simp only [processEvent]
  split <;> rfl

theorem processEvent_cc_sub (wc : WatchCache) (ty : EventType) (e : StoreElement) (rv : Nat)
    (now : Int) (p : Nat × Tree) (h : p ∈ (processEvent wc ty e rv now).1.continueCache) :
    p ∈ wc.continueCache := by
  simp only [processEvent] at h
  split at h
  · exact updateCache_cc_sub _ _ _ h
  · exact updateCache_cc_sub _ _ _ h

theorem listPage_cases (wc : WatchCache) (rrv : Nat) (key : String) (limit : Int)
    (tok : Option ContinueToken) :
    (waitUntilFreshAndList wc rrv key limit tok).1 = wc ∨
    (waitUntilFreshAndList wc rrv key limit tok).1 =
      { wc with continueCache := (rrv, wc.store) :: wc.continueCache } := by
  simp only [waitUntilFreshAndList]
  split
  · exact Or.inl rfl
  · match tok with
    | some tk =>
      simp only
      match h : ccLookup wc.continueCache rrv with
      | none => exact Or.inl rfl
      | some cl =>
        simp only
        split <;> exact Or.inl rfl
    | none => exact Or.inr rfl

/-- The resource-version bound on ContinueCache keys. -/
def CCBound (wc : WatchCache) : Prop :=
  ∀ p ∈ wc.continueCache, p.1 ≤ wc.resourceVersion

theorem applyOp_ccBound (wc : WatchCache) (op : WCOp) (hinv : CCBound wc)
    (hop : opMonotone wc op = true) : CCBound (applyOp wc op) := by
  cases op with
  | event ty elem rv now =>
    intro p hp
    simp only [applyOp] at hp ⊢
    rw [processEvent_rv]
    have hrv : wc.resourceVersion ≤ rv := by simpa [opMonotone] using hop
    have := hinv p (processEvent_cc_sub _ _ _ _ _ _ hp)
    omega
  | replace elems rv =>
    intro p hp
    simp only [applyOp, wcReplace] at hp ⊢
    have hrv : wc.resourceVersion ≤ rv := by simpa [opMonotone] using hop
    have := hinv p hp
    omega
  | updateRV rv =>
    intro p hp
    simp only [applyOp] at hp ⊢
    have hrv : wc.resourceVersion ≤ rv := by simpa [opMonotone] using hop
    have := hinv p hp
    omega
  | listPage rrv key limit tok =>
    intro p hp
    simp only [applyOp] at hp ⊢
    rcases listPage_cases wc rrv key limit tok with h | h <;> rw [h] at hp ⊢
    · exact hinv p hp
    · rcases List.mem_cons.mp hp with h1 | h1
      · subst h1
        simpa [opMonotone] using hop
      · exact hinv p h1

theorem runOps_ccBound : ∀ (ops : List WCOp) (wc : WatchCache), CCBound wc →
    opsMonotone wc ops = true → CCBound (runOps wc ops) := by
  intro ops
  induction ops with
  | nil => intro wc h _; exact h
  | cons op ops ih =>
    intro wc h hmono
    rw [opsMonotone, Bool.and_eq_true] at hmono
    exact ih (applyOp wc op) (applyOp_ccBound wc op h hmono.1) hmono.2

/-- Claim C5 is false on the code: a fresh `Replace` clears the ring but not
the ContinueCache, and a paginated list can register a snapshot while the
ring is empty; here the ContinueCache holds key 10 while the ring holds no
event at all, so no ring event with rv ≥ 10 exists. -/
theorem c5_counterexample :
    (ccLookup c5Listed.continueCache 10).isSome = true ∧
    windowEvents c5Listed = [] ∧
    ¬ ∃ e ∈ windowEvents c5Listed, 10 ≤ e.resourceVersion := by
  decide

/-- Claim C5 amended: under the ingestor discipline (non-decreasing resource
versions; a paginated list only for a requested rv the advertised rv has
reached), every ContinueCache key is bounded by the advertised resource
version; ring membership of a covering event is not guaranteed (`Replace`
and capacity shrinks evict events without evicting ContinueCache entries,
and registration can happen with an empty ring). -/
theorem c5_continueCache_keys_bounded (ops : List WCOp)
    (h : opsMonotone initialWatchCache ops = true) :
    ∀ p ∈ (runOps initialWatchCache ops).continueCache,
      p.1 ≤ (runOps initialWatchCache ops).resourceVersion := by
  refine runOps_ccBound ops initialWatchCache ?_ h
  intro p hp
  simp [initialWatchCache] at hp

/-- Witness for C5 at a concrete operation sequence. -/
theorem c5_witness :
    opsMonotone initialWatchCache
      [.event .added ⟨"/a", 1, [], []⟩ 5 0, .listPage 5 "/" 1 none] = true ∧
    ∀ p ∈ (runOps initialWatchCache
        [.event .added ⟨"/a", 1, [], []⟩ 5 0, .listPage 5 "/" 1 none]).continueCache,
      p.1 ≤ (runOps initialWatchCache
        [.event .added ⟨"/a", 1, [], []⟩ 5 0, .listPage 5 "/" 1 none]).resourceVersion :=
  ⟨by decide, c5_continueCache_keys_bounded _ (by decide)⟩

/-! ### Claim C2 -/

/-- Claim C2 amended: with a positive limit and no continue token, the clone
is registered in ContinueCache under the requested resource version argument
(not the advertised one); with a continue token, ContinueCache is looked up
by that same requested resource version (not the resource version encoded in
the token), and a missing entry fails with ResourceExpired
"too old resource version: RV" at the requested RV; a present entry serves
the read from that snapshot. -/
theorem c2_paginated_protocol (wc : WatchCache) (rrv : Nat) (key : String) (limit : Int)
    (hl : 0 < limit) :
    ((waitUntilFreshAndList wc rrv key limit none).1.continueCache
        = (rrv, wc.store) :: wc.continueCache
      ∧ (waitUntilFreshAndList wc rrv key limit none).1.resourceVersion = wc.resourceVersion)
    ∧ (∀ tk : ContinueToken, ccLookup wc.continueCache rrv = none →
        waitUntilFreshAndList wc rrv key limit (some tk)
          = (wc, .error (.resourceExpired ("too old resource version: " ++ toString rrv))))
    ∧ (∀ (tk : ContinueToken) (cl : Tree), ccLookup wc.continueCache rrv = some cl →
        waitUntilFreshAndList wc rrv key limit (some tk)
          = (wc,
            match decodeContinueTok tk (if strEndsWithSlash key then key else key ++ "/") with
            | .error e => .error (.badRequest ("invalid continue token: " ++ e))
            | .ok ck => .ok (limitPrefixRead cl limit ck.1, wc.resourceVersion))) := by
  refine ⟨⟨?_, ?_⟩, ?_, ?_⟩
  · simp only [waitUntilFreshAndList, if_neg (not_not_intro hl)]
  · simp only [waitUntilFreshAndList, if_neg (not_not_intro hl)]
  · intro tk h
    simp only [waitUntilFreshAndList, if_neg (not_not_intro hl), h]
  · intro tk cl h
    simp only [waitUntilFreshAndList, if_neg (not_not_intro hl), h]
    split <;> rfl

/-- Claim C2 is false as stated: the clone is registered under the requested
resource version (15), not the advertised one (20); and with a continue
token carrying rv 999 — an rv that is present in the ContinueCache — the
lookup still goes through the requested rv 15 and fails. -/
theorem c2_counterexample :
    ccLookup (waitUntilFreshAndList c2StateA 15 "/" 1 none).1.continueCache 20 = none
    ∧ ccLookup (waitUntilFreshAndList c2StateA 15 "/" 1 none).1.continueCache 15
        = some c2StateA.store
    ∧ (waitUntilFreshAndList c2StateB 15 "/" 1 (some ⟨"meta.k8s.io/v1", 999, "/a"⟩)).2
        = .error (.resourceExpired "too old resource version: 15")
    ∧ (ccLookup c2StateB.continueCache 999).isSome = true := by
  decide

/-- Witness for C2 at a concrete input. -/
theorem c2_witness :
    (0 : Int) < 1 ∧
    (waitUntilFreshAndList initialWatchCache 7 "/" 1 none).1.continueCache
      = (7, initialWatchCache.store) :: initialWatchCache.continueCache :=
  ⟨by decide, ((c2_paginated_protocol initialWatchCache 7 "/" 1 (by decide)).1).1⟩

/-! ### Claim C7 -/

theorem gateLoop_find_char (rv : Nat) (obs : List GateObs) :
    gateLoop rv obs =
      match obs.find? (fun o => decide (rv ≤ o.rv) || decide (blockTimeout ≤ o.elapsed)) with
      | none => none
      | some o =>
        if rv ≤ o.rv then some .success
        else some (.tooLargeResourceVersion rv o.rv resourceVersionTooHighRetrySeconds) := by
  induction obs with
  | nil => rfl
  | cons o rest ih =>
    simp only [gateLoop, List.find?]
    by_cases h1 : o.rv < rv
    · have h1' : ¬ rv ≤ o.rv := by omega
      by_cases h2 : blockTimeout ≤ o.elapsed
      · simp [h1, h2, h1']
      · simp [h1, h2, h1', ih]
    · have h1' : rv ≤ o.rv := by omega
      simp [h1, h1']

/-- Claim C7: for requested rv 0 the gate schedules no wake-up timer and
succeeds at the first look at the state; for rv > 0 the timer is scheduled
and the loop exits at the first observation where the advertised rv has
caught up or the 3-second timeout has elapsed — succeeding in the former
case and failing with `TooLargeResourceVersion(requested, current,
retryAfter = 1 s)` in the latter. -/
theorem c7_freshness_gate (rv : Nat) (obs : List GateObs) :
    (rv = 0 →
      (waitUntilFreshAndBlock rv obs).1 = false ∧
      ∀ o rest, obs = o :: rest → (waitUntilFreshAndBlock rv obs).2 = some .success)
    ∧ (0 < rv →
      (waitUntilFreshAndBlock rv obs).1 = true ∧
      (waitUntilFreshAndBlock rv obs).2 =
        match obs.find? (fun o => decide (rv ≤ o.rv) || decide (blockTimeout ≤ o.elapsed)) with
        | none => none
        | some o =>
          if rv ≤ o.rv then some .success
          else some (.tooLargeResourceVersion rv o.rv resourceVersionTooHighRetrySeconds)) := by
  constructor
  · rintro rfl
    refine ⟨by simp [waitUntilFreshAndBlock], ?_⟩
    rintro o rest rfl
    simp [waitUntilFreshAndBlock, gateLoop]
  · intro h
    refine ⟨by simp [waitUntilFreshAndBlock, h], ?_⟩
    exact gateLoop_find_char rv obs

/-- Witness for C7: an rv-0 call on a stale state, and an rv-7 call that
times out after 3 seconds at advertised rv 5. -/
theorem c7_witness :
    ((0 : Nat) = 0 ∧
      (waitUntilFreshAndBlock 0 [⟨5, 0⟩]).1 = false ∧
      (waitUntilFreshAndBlock 0 [⟨5, 0⟩]).2 = some .success)
    ∧ (0 < 7 ∧
      (waitUntilFreshAndBlock 7 [⟨5, 0⟩, ⟨5, 3⟩]).1 = true ∧
      (waitUntilFreshAndBlock 7 [⟨5, 0⟩, ⟨5, 3⟩]).2
        = some (.tooLargeResourceVersion 7 5 1)) := by
  have h0 := (c7_freshness_gate 0 [⟨5, 0⟩]).1 rfl
  have h7 := (c7_freshness_gate 7 [⟨5, 0⟩, ⟨5, 3⟩]).2 (by decide)
  refine ⟨⟨rfl, h0.1, h0.2 ⟨5, 0⟩ [] rfl⟩, ⟨by decide, h7.1, ?_⟩⟩
  rw [h7.2]
  decide

/-! ### Claim C8 -/

/-- Claim C8: for a token with the recognized apiVersion, decoding fails when
the resource version is 0 or the start key is empty; with a slash prepended
to the start key when missing, the token is rejected whenever path-cleaning
changes the string (e.g. the non-canonical "a/../b"); on success the result
is the key prefix concatenated with the canonical path minus its leading
slash, together with the token's resource version. -/
theorem c8_decodeContinue (tok : ContinueToken) (pfx : String)
    (hv : tok.apiVersion = "meta.k8s.io/v1") :
    (tok.resourceVersion = 0 → ∃ m, decodeContinueTok tok pfx = .error m)
    ∧ (tok.startKey = "" → ∃ m, decodeContinueTok tok pfx = .error m)
    ∧ (∀ key, key = (if strStartsWith "/" tok.startKey then tok.startKey else "/" ++ tok.startKey) →
        tok.resourceVersion ≠ 0 → tok.startKey ≠ "" →
        (pathClean key ≠ key →
          decodeContinueTok tok pfx = .error ("continue key is not valid: " ++ tok.startKey))
        ∧ (pathClean key = key →
          decodeContinueTok tok pfx = .ok (pfx ++ (pathClean key).drop 1, tok.resourceVersion)))
    ∧ decodeContinueTok ⟨"meta.k8s.io/v1", 5, "a/../b"⟩ "registry/pods/"
        = .error ("continue key is not valid: a/../b") := by
  refine ⟨?_, ?_, ?_, ?_⟩
  · intro h
    refine ⟨"continue key is not valid: incorrect encoded start resourceVersion (version meta.k8s.io/v1)", ?_⟩
    simp [decodeContinueTok, hv, h]
  · intro h
    by_cases h0 : tok.resourceVersion = 0
    · refine ⟨"continue key is not valid: incorrect encoded start resourceVersion (version meta.k8s.io/v1)", ?_⟩
      simp [decodeContinueTok, hv, h, h0]
    · refine ⟨"continue key is not valid: encoded start key empty (version meta.k8s.io/v1)", ?_⟩
      simp [decodeContinueTok, hv, h, h0]
  · rintro key rfl h0 hk
    constructor
    · intro hne
      simp [decodeContinueTok, hv, h0, hk, hne]
    · intro heq
      simp [decodeContinueTok, hv, h0, hk, heq]
  · decide

/-- Witness for C8: a canonical token decodes to the re-prefixed key. -/
theorem c8_witness :
    ContinueToken.apiVersion ⟨"meta.k8s.io/v1", 5, "b"⟩ = "meta.k8s.io/v1" ∧
    decodeContinueTok ⟨"meta.k8s.io/v1", 5, "b"⟩ "pods/" = .ok ("pods/b", 5) := by
  have h := ((c8_decodeContinue ⟨"meta.k8s.io/v1", 5, "b"⟩ "pods/" rfl).2.2.1
    "/b" (by decide) (by decide) (by decide)).2 (by decide)
  refine ⟨rfl, ?_⟩
  rw [h]
  decide

/-! ### Claim C3 -/

theorem lexLt_cons_iff (x y : Char) (xs ys : List Char) :
    lexLt (x :: xs) (y :: ys) = true ↔ x < y ∨ (x = y ∧ lexLt xs ys = true) := by
  simp only [lexLt]
  split_ifs with h1 h2
  · simp [h1]
  · constructor
    · intro hf
      exact absurd hf (by simp)
    · rintro (h | ⟨rfl, _⟩)
      · exact absurd h h1
      · exact absurd h2 (lt_irrefl _)
  · have hxy : x = y := le_antisymm (not_lt.mp h2) (not_lt.mp h1)
    simp [h1, hxy]

theorem listStartsWith_cons_iff (p s : Char) (ps ss : List Char) :
    listStartsWith (p :: ps) (s :: ss) = true ↔ p = s ∧ listStartsWith ps ss = true := by
  simp only [listStartsWith]
  split_ifs with h
  · simp [h]
  · simp [h]

theorem lexLt_trans : ∀ {a b c : List Char},
    lexLt a b = true → lexLt b c = true → lexLt a c = true
  | [], b, c, h1, h2 => by
    cases b with
    | nil => simp [lexLt] at h1
    | cons y ys =>
      cases c with
      | nil => simp [lexLt] at h2
      | cons z zs => simp [lexLt]
  | x :: xs, b, c, h1, h2 => by
    cases b with
    | nil => simp [lexLt] at h1
    | cons y ys =>
      cases c with
      | nil => simp [lexLt] at h2
      | cons z zs =>
        rw [lexLt_cons_iff] at h1 h2 ⊢
        rcases h1 with h1 | ⟨rfl, h1⟩
        · rcases h2 with h2 | ⟨rfl, h2⟩
          · exact Or.inl (lt_trans h1 h2)
          · exact Or.inl h1
        · rcases h2 with h2 | ⟨rfl, h2⟩
          · exact Or.inl h2
          · exact Or.inr ⟨rfl, lexLt_trans h1 h2⟩

theorem not_startsWith_of_ge_lt : ∀ (p a b : List Char),
    listStartsWith p a = false → lexLt a p = false → lexLt a b = true →
    listStartsWith p b = false := by
  intro p
  induction p with
  | nil =>
    intro a b h _ _
    simp [listStartsWith] at h
  | cons q qs ih =>
    intro a b h h2 h3
    cases a with
    | nil => simp [lexLt] at h2
    | cons x xs =>
      cases b with
      | nil => simp [lexLt] at h3
      | cons y ys =>
        rw [Bool.eq_false_iff]
        intro hb
        obtain ⟨hqy, hqs⟩ := (listStartsWith_cons_iff q y qs ys).mp hb
        subst hqy
        have hn : ¬ (q = x ∧ listStartsWith qs xs = true) := by
          rw [← listStartsWith_cons_iff]
          simp [h]
        have hn2 : ¬ (x < q ∨ (x = q ∧ lexLt xs qs = true)) := by
          rw [← lexLt_cons_iff]
          simp [h2]
        push_neg at hn2
        obtain ⟨hxq, himp⟩ := hn2
        have h3p := (lexLt_cons_iff x q xs ys).mp h3
        rcases h3p with hxy | ⟨rfl, hlt⟩
        · exact absurd hxy (not_lt.mpr hxq)
        · have hswxs : listStartsWith qs xs = false := by
            rcases Bool.eq_false_or_eq_true (listStartsWith qs xs) with ht | hf
            · exact absurd ⟨rfl, ht⟩ hn
            · exact hf
          have hltxs : lexLt xs qs = false := by
            rcases Bool.eq_false_or_eq_true (lexLt xs qs) with ht | hf
            · exact absurd ht (himp rfl)
            · exact hf
          have := ih xs ys hswxs hltxs hlt
          rw [this] at hqs
          exact Bool.false_ne_true hqs

theorem strLt_trans {a b c : String} (h1 : strLt a b = true) (h2 : strLt b c = true) :
    strLt a c = true := lexLt_trans h1 h2

theorem dropWhile_eq_filter_of_sorted (key : String) :
    ∀ (t : List StoreElement), TreeSorted t →
    t.dropWhile (fun e => strLt e.Key key) = t.filter (fun e => !strLt e.Key key) := by
  intro t hs
  induction t with
  | nil => rfl
  | cons a t' ih =>
    obtain ⟨ha, hs'⟩ := List.pairwise_cons.mp hs
    by_cases h : strLt a.Key key = true
    · rw [List.dropWhile_cons_of_pos (by simp [h]), List.filter_cons_of_neg (by simp [h])]
      exact ih hs'
    · have h' : strLt a.Key key = false := by simpa using h
      rw [List.dropWhile_cons_of_neg (by simp [h']), List.filter_cons_of_pos (by simp [h'])]
      have : t'.filter (fun e => !strLt e.Key key) = t' := by
        rw [List.filter_eq_self]
        intro e he
        rcases Bool.eq_false_or_eq_true (strLt e.Key key) with ht | hf
        · exact absurd (strLt_trans (ha e he) ht) (by simp [h'])
        · simp [hf]
      rw [this]

theorem takeWhile_eq_filter_of_block (key : String) :
    ∀ (l : List StoreElement), TreeSorted l → (∀ e ∈ l, strLt e.Key key = false) →
    l.takeWhile (fun e => strStartsWith key e.Key) = l.filter (fun e => strStartsWith key e.Key) := by
  intro l
  induction l with
  | nil => intro _ _; rfl
  | cons a l' ih =>
    intro hs hge
    obtain ⟨ha, hs'⟩ := List.pairwise_cons.mp hs
    by_cases hp : strStartsWith key a.Key = true
    · rw [List.takeWhile_cons_of_pos (p := fun (x : StoreElement) => strStartsWith key x.Key) hp,
        List.filter_cons_of_pos (p := fun (x : StoreElement) => strStartsWith key x.Key) hp]
      rw [ih hs' (fun e he => hge e (List.mem_cons_of_mem a he))]
    · have hp' : strStartsWith key a.Key = false := by simpa using hp
      rw [List.takeWhile_cons_of_neg (p := fun (x : StoreElement) => strStartsWith key x.Key) (by simp [hp']),
        List.filter_cons_of_neg (p := fun (x : StoreElement) => strStartsWith key x.Key) (by simp [hp'])]
      symm
      rw [List.filter_eq_nil_iff]
      intro e he
      have := not_startsWith_of_ge_lt key.data a.Key.data e.Key.data hp'
        (hge a (List.mem_cons_self a l')) (ha e he)
      simp [strStartsWith, this]

theorem limitPrefixLoop_take (key : String) :
    ∀ (l : List StoreElement) (limit n : Int), 0 ≤ n → n ≤ limit →
    limitPrefixLoop limit key l n
      = (l.takeWhile (fun e => strStartsWith key e.Key)).take (limit - n).toNat := by
  intro l
  induction l with
  | nil => intro limit n _ _; simp [limitPrefixLoop]
  | cons e es ih =>
    intro limit n h0 hn
    by_cases he : n = limit
    · subst he
      simp [limitPrefixLoop]
    · have hlt : n < limit := lt_of_le_of_ne hn he
      by_cases hp : strStartsWith key e.Key = true
      · rw [List.takeWhile_cons_of_pos (p := fun (x : StoreElement) => strStartsWith key x.Key) hp]
        have htn : (limit - n).toNat = (limit - (n + 1)).toNat + 1 := by omega
        rw [htn, List.take_succ_cons]
        simp only [limitPrefixLoop, if_neg he, hp, Bool.not_true, Bool.false_eq_true, if_false]
        rw [ih limit (n + 1) (by omega) (by omega)]
      · have hp' : strStartsWith key e.Key = false := by simpa using hp
        rw [List.takeWhile_cons_of_neg (p := fun (x : StoreElement) => strStartsWith key x.Key) (by simp [hp'])]
        simp [limitPrefixLoop, if_neg he, hp']

/-- Claim C3 amended: on a sorted store, for limit > 0 `LimitPrefixRead`
returns, in ascending byte-wise key order, the records whose key is ≥ the
prefix and starts with the prefix, stopping after at most `limit` items; for
limit = 0 it returns the empty list (NOT all matching records). -/
theorem c3_limitPrefixRead_ordered (t : Tree) (limit : Int) (key : String) (hs : TreeSorted t) :
    (0 < limit →
      limitPrefixRead t limit key
        = (t.filter (fun e => !strLt e.Key key && strStartsWith key e.Key)).take limit.toNat
      ∧ List.Pairwise (fun a b => strLt a.Key b.Key = true) (limitPrefixRead t limit key))
    ∧ limitPrefixRead t 0 key = [] := by
  constructor
  · intro hl
    have hsf : TreeSorted (t.filter (fun e => !strLt e.Key key)) := hs.filter _
    have hblock : ∀ e ∈ t.filter (fun e => !strLt e.Key key), strLt e.Key key = false := by
      intro e he
      simpa using (List.mem_filter.mp he).2
    have heq : limitPrefixRead t limit key
        = (t.filter (fun e => !strLt e.Key key && strStartsWith key e.Key)).take limit.toNat := by
      unfold limitPrefixRead
      rw [limitPrefixLoop_take key _ limit 0 (le_refl 0) (le_of_lt hl)]
      rw [dropWhile_eq_filter_of_sorted key t hs]
      rw [takeWhile_eq_filter_of_block key _ hsf hblock]
      rw [List.filter_filter]
      rw [List.filter_congr (fun a _ => by rw [Bool.and_comm])]
      norm_num
    refine ⟨heq, ?_⟩
    rw [heq]
    exact List.Pairwise.sublist (List.take_sublist _ _) (hs.filter _)
  · unfold limitPrefixRead
    cases t.dropWhile (fun e => strLt e.Key key) with
    | nil => rfl
    | cons a l => simp [limitPrefixLoop]

/-- Claim C3 is false at limit = 0: the iterator's counter check
`elementsRetrieved == limit` fires immediately, so nothing is returned even
though a matching record exists. -/
theorem c3_counterexample :
    limitPrefixRead ([⟨"/a", 1, [], []⟩] : Tree) 0 "/" = [] ∧
    List.filter (fun (e : StoreElement) => !strLt e.Key "/" && strStartsWith "/" e.Key)
        ([⟨"/a", 1, [], []⟩] : Tree)
      = [⟨"/a", 1, [], []⟩] ∧
    ¬ limitPrefixRead ([⟨"/a", 1, [], []⟩] : Tree) 0 "/" = [⟨"/a", 1, [], []⟩] := by
  decide

/-- Witness for C3 on a concrete two-record sorted store. -/
theorem c3_witness :
    TreeSorted ([⟨"/a", 1, [], []⟩, ⟨"/b", 2, [], []⟩] : Tree) ∧ (0 : Int) < 1 ∧
    limitPrefixRead ([⟨"/a", 1, [], []⟩, ⟨"/b", 2, [], []⟩] : Tree) 1 "/"
      = (List.filter (fun (e : StoreElement) => !strLt e.Key "/" && strStartsWith "/" e.Key)
          ([⟨"/a", 1, [], []⟩, ⟨"/b", 2, [], []⟩] : Tree)).take (1 : Int).toNat := by
  refine ⟨by unfold TreeSorted; decide, by decide, ?_⟩
  exact ((c3_limitPrefixRead_ordered ([⟨"/a", 1, [], []⟩, ⟨"/b", 2, [], []⟩] : Tree) 1 "/"
    (by unfold TreeSorted; decide)).1 (by decide)).1

/-! ### Claim C6 -/

theorem sortSearchGo_spec : ∀ (fuel : Nat) (f : Nat → Bool) (i j : Nat),
    j - i ≤ fuel → i ≤ j →
    (∀ a b, i ≤ a → a ≤ b → b < j → f a = true → f b = true) →
    i ≤ sortSearchGo fuel f i j ∧ sortSearchGo fuel f i j ≤ j ∧
    (∀ k, i ≤ k → k < sortSearchGo fuel f i j → f k = false) ∧
    (sortSearchGo fuel f i j < j → f (sortSearchGo fuel f i j) = true) := by
  intro fuel
  induction fuel with
  | zero =>
    intro f i j hn hij _
    have hji : i = j := by omega
    subst hji
    simp only [sortSearchGo]
    refine ⟨le_refl _, le_refl _, ?_, ?_⟩
    · intro k h1 h2
      omega
    · intro h
      omega
  | succ m ih =>
    intro f i j hn hij hmono
    by_cases h : i < j
    · simp only [sortSearchGo, if_pos h]
      by_cases hf : f ((i + j) / 2) = true
      · rw [if_pos hf]
        have hrec := ih f i ((i + j) / 2) (by omega) (by omega)
          (fun a b ha hab hb hfa => hmono a b ha hab (by omega) hfa)
        obtain ⟨r1, r2, r3, r4⟩ := hrec
        refine ⟨r1, by omega, r3, ?_⟩
        intro hrj
        rcases lt_or_eq_of_le r2 with hlt | heq
        · exact r4 hlt
        · rw [heq]
          exact hf
      · rw [if_neg hf]
        have hf' : f ((i + j) / 2) = false := by simpa using hf
        have hrec := ih f ((i + j) / 2 + 1) j (by omega) (by omega)
          (fun a b ha hab hb hfa => hmono a b (by omega) hab hb hfa)
        obtain ⟨r1, r2, r3, r4⟩ := hrec
        refine ⟨by omega, r2, ?_, r4⟩
        intro k hk hkr
        by_cases hkm : k ≤ (i + j) / 2
        · rcases Bool.eq_false_or_eq_true (f k) with ht | hfk
          · exact absurd (hmono k ((i + j) / 2) hk hkm (by omega) ht) (by simp [hf'])
          · exact hfk
        · exact r3 k (by omega) hkr
    · simp only [sortSearchGo, if_neg h]
      refine ⟨le_refl _, hij, ?_, ?_⟩
      · intro k h1 h2
        omega
      · intro hc
        omega

theorem takeWhile_length_spec {α : Type} (p : α → Bool) (d : α) :
    ∀ l : List α,
    (l.takeWhile p).length ≤ l.length ∧
    (∀ k, k < (l.takeWhile p).length → p (l.getD k d) = true) ∧
    ((l.takeWhile p).length < l.length → p (l.getD (l.takeWhile p).length d) = false) := by
  intro l
  induction l with
  | nil => simp
  | cons a l' ih =>
    obtain ⟨ih1, ih2, ih3⟩ := ih
    by_cases hp : p a = true
    · rw [List.takeWhile_cons_of_pos hp]
      refine ⟨by simpa using ih1, ?_, ?_⟩
      · intro k hk
        cases k with
        | zero => simpa using hp
        | succ k' =>
          simp only [List.length_cons] at hk
          have := ih2 k' (by omega)
          simpa [List.getD_cons_succ] using this
      · intro hlt
        simp only [List.length_cons] at hlt
        have := ih3 (by omega)
        simpa [List.getD_cons_succ] using this
    · have hp' : p a = false := by simpa using hp
      rw [List.takeWhile_cons_of_neg (by simp [hp'])]
      refine ⟨by simp, by simp, ?_⟩
      intro _
      simpa [List.getD_cons_zero] using hp'

theorem windowEvents_length (wc : WatchCache) :
    (windowEvents wc).length = wc.endIndex - wc.startIndex := by
  simp [windowEvents]

theorem windowEvents_getD (wc : WatchCache) (k : Nat) (d : WatchCacheEvent)
    (hk : k < wc.endIndex - wc.startIndex) :
    (windowEvents wc).getD k d = evGet (ringGet wc (wc.startIndex + k)) := by
  unfold windowEvents
  rw [List.getD_eq_getElem _ _ (by simpa using hk)]
  simp

theorem sortSearch_eq_first_index (wc : WatchCache) (rv : Nat)
    (hsorted : List.Pairwise (fun a b => a.resourceVersion < b.resourceVersion) (windowEvents wc)) :
    sortSearch (fun i => decide (rv < (evGet (ringGet wc (wc.startIndex + i))).resourceVersion))
        (wc.endIndex - wc.startIndex)
      = ((windowEvents wc).takeWhile (fun e => e.resourceVersion ≤ rv)).length := by
  have hlen : (windowEvents wc).length = wc.endIndex - wc.startIndex := windowEvents_length wc
  have hbridge : ∀ k, k < wc.endIndex - wc.startIndex →
      (evGet (ringGet wc (wc.startIndex + k)))
        = (windowEvents wc).getD k (evGet none) := by
    intro k hk
    rw [windowEvents_getD wc k (evGet none) hk]
  have hmono : ∀ a b, 0 ≤ a → a ≤ b → b < wc.endIndex - wc.startIndex →
      decide (rv < (evGet (ringGet wc (wc.startIndex + a))).resourceVersion) = true →
      decide (rv < (evGet (ringGet wc (wc.startIndex + b))).resourceVersion) = true := by
    intro a b _ hab hb hfa
    rw [hbridge a (by omega)] at hfa
    rw [hbridge b hb]
    simp only [decide_eq_true_eq] at hfa ⊢
    rcases eq_or_lt_of_le hab with rfl | hlt
    · exact hfa
    · have hg := (List.pairwise_iff_getElem.mp hsorted) a b (by omega) (by omega) hlt
      rw [List.getD_eq_getElem _ _ (by omega)] at hfa ⊢
      omega
  have hspec := sortSearchGo_spec (wc.endIndex - wc.startIndex)
    (fun i => decide (rv < (evGet (ringGet wc (wc.startIndex + i))).resourceVersion))
    0 (wc.endIndex - wc.startIndex) (by omega) (by omega)
    (fun a b ha hab hb => hmono a b ha hab hb)
  obtain ⟨s1, s2, s3, s4⟩ := hspec
  obtain ⟨t1, t2, t3⟩ := takeWhile_length_spec
    (fun e => decide (e.resourceVersion ≤ rv)) (evGet none) (windowEvents wc)
  rw [hlen] at t1 t3
  unfold sortSearch
  rcases lt_trichotomy
    (sortSearchGo (wc.endIndex - wc.startIndex)
      (fun i => decide (rv < (evGet (ringGet wc (wc.startIndex + i))).resourceVersion))
      0 (wc.endIndex - wc.startIndex))
    (((windowEvents wc).takeWhile (fun e => e.resourceVersion ≤ rv)).length) with h | h | h
  · exfalso
    have hs_lt : sortSearchGo (wc.endIndex - wc.startIndex)
        (fun i => decide (rv < (evGet (ringGet wc (wc.startIndex + i))).resourceVersion))
        0 (wc.endIndex - wc.startIndex) < wc.endIndex - wc.startIndex := by omega
    have hft := s4 hs_lt
    have hpt := t2 _ h
    simp only [hbridge _ hs_lt, decide_eq_true_eq] at hft
    simp only [decide_eq_true_eq] at hpt
    omega
  · exact h
  · exfalso
    have ht_lt : ((windowEvents wc).takeWhile (fun e => e.resourceVersion ≤ rv)).length
        < wc.endIndex - wc.startIndex := by omega
    have hpt := t3 ht_lt
    have hft := s3 _ (by omega) h
    simp only [hbridge _ ht_lt, decide_eq_false_iff_not] at hft
    simp only [decide_eq_false_iff_not] at hpt
    omega

/-- Claim C6: for rv > 0 on a correctly initialized cache (sorted window of
positive resource versions), `EventsSince` fails with ResourceExpired exactly
when rv < oldestAvailable - 1, where oldestAvailable is listResourceVersion+1
when the ring has not evicted since the last Replace (startIndex = 0,
listResourceVersion > 0) and otherwise the resource version of the event at
startIndex; otherwise it returns the ring interval from the first event with
resource version > rv up to endIndex (the binary search agrees with the
first-match index). -/
theorem c6_eventsSince (wc : WatchCache) (rv : Nat) (hrv : 0 < rv)
    (hsorted : List.Pairwise (fun a b => a.resourceVersion < b.resourceVersion) (windowEvents wc))
    (hpos : ∀ e ∈ windowEvents wc, 0 < e.resourceVersion)
    (hinit : (0 < wc.listResourceVersion ∧ wc.startIndex = 0) ∨ 0 < wc.endIndex - wc.startIndex) :
    ∀ oldest, oldest = (if 0 < wc.listResourceVersion ∧ wc.startIndex = 0
        then wc.listResourceVersion + 1
        else (evGet (ringGet wc wc.startIndex)).resourceVersion) →
    (rv < oldest - 1 →
      getAllEventsSinceLocked wc rv
        = .error (.resourceExpired ("too old resource version: " ++ toString rv
            ++ " (" ++ toString (oldest - 1) ++ ")")))
    ∧ (oldest - 1 ≤ rv →
      getAllEventsSinceLocked wc rv
        = .ok (.ring (wc.startIndex
            + ((windowEvents wc).takeWhile (fun e => e.resourceVersion ≤ rv)).length)
            wc.endIndex)) := by
  rintro oldest rfl
  have hrv0 : ¬ rv = 0 := by omega
  by_cases hc : 0 < wc.listResourceVersion ∧ wc.startIndex = 0
  · rw [if_pos hc]
    have husub : usub1 (wc.listResourceVersion + 1) = wc.listResourceVersion := by
      simp [usub1]
    constructor
    · intro hlt
      simp only [getAllEventsSinceLocked, if_pos hc, if_neg hrv0, husub]
      rw [Nat.add_sub_cancel, if_pos (show rv < wc.listResourceVersion by omega)]
    · intro hge
      simp only [getAllEventsSinceLocked, if_pos hc, if_neg hrv0, husub]
      rw [sortSearch_eq_first_index wc rv hsorted,
        if_neg (show ¬ rv < wc.listResourceVersion by omega)]
  · have hsz : 0 < wc.endIndex - wc.startIndex := by tauto
    rw [if_neg hc]
    have hmem : evGet (ringGet wc wc.startIndex) ∈ windowEvents wc := by
      have : (windowEvents wc).getD 0 (evGet none) = evGet (ringGet wc (wc.startIndex + 0)) :=
        windowEvents_getD wc 0 (evGet none) hsz
      rw [List.getD_eq_getElem _ _ (by rw [windowEvents_length]; omega)] at this
      rw [Nat.add_zero] at this
      rw [← this]
      exact List.getElem_mem _
    have hop : 0 < (evGet (ringGet wc wc.startIndex)).resourceVersion := hpos _ hmem
    have husub : usub1 (evGet (ringGet wc wc.startIndex)).resourceVersion
        = (evGet (ringGet wc wc.startIndex)).resourceVersion - 1 := by
      simp only [usub1, if_neg (show ¬ (evGet (ringGet wc wc.startIndex)).resourceVersion = 0
        by omega)]
    constructor
    · intro hlt
      simp only [getAllEventsSinceLocked, if_neg hc, if_pos hsz, if_neg hrv0, husub,
        if_pos hlt]
    · intro hge
      simp only [getAllEventsSinceLocked, if_neg hc, if_pos hsz, if_neg hrv0, husub,
        if_neg (show ¬ rv < (evGet (ringGet wc wc.startIndex)).resourceVersion - 1 by omega)]
      rw [sortSearch_eq_first_index wc rv hsorted]

/-- Witness for C6: both the interval and the expired branch at a concrete
state. -/
theorem c6_witness :
    (0 : Nat) < 11 ∧
    List.Pairwise (fun a b => a.resourceVersion < b.resourceVersion) (windowEvents c6State) ∧
    (∀ e ∈ windowEvents c6State, 0 < e.resourceVersion) ∧
    getAllEventsSinceLocked c6State 11 = .ok (.ring 1 2) ∧
    getAllEventsSinceLocked c6State 5
      = .error (.resourceExpired "too old resource version: 5 (10)") := by
  refine ⟨by decide, by decide, by decide, ?_, ?_⟩
  · have h := c6_eventsSince c6State 11 (by decide) (by decide) (by decide)
      (by decide) 11 (by decide)
    rw [h.2 (by decide)]
    decide
  · have h := c6_eventsSince c6State 5 (by decide) (by decide) (by decide)
      (by decide) 11 (by decide)
    rw [h.1 (by decide)]
    decide

/-! ### Claim C9 -/

theorem updateCache_capacity (wc : WatchCache) (e : WatchCacheEvent) :
    (updateCache wc e).capacity = (resizeCacheLocked wc e.recordTime).capacity := by
  simp only [updateCache]
  split <;> rfl

theorem processEvent_capacity (wc : WatchCache) (ty : EventType) (e : StoreElement) (rv : Nat)
    (now : Int) :
    ∃ t, (processEvent wc ty e rv now).1.capacity = (resizeCacheLocked wc t).capacity := by
  simp only [processEvent]
  split
  · exact ⟨_, updateCache_capacity wc _⟩
  · exact ⟨_, updateCache_capacity wc _⟩

theorem resize_bounds (wc : WatchCache) (t : Int) :
    (resizeCacheLocked wc t).lowerBoundCapacity = wc.lowerBoundCapacity ∧
    (resizeCacheLocked wc t).upperBoundCapacity = wc.upperBoundCapacity := by
  simp only [resizeCacheLocked, doCacheResizeLocked]
  split_ifs <;> exact ⟨rfl, rfl⟩

theorem updateCache_bounds (wc : WatchCache) (e : WatchCacheEvent) :
    (updateCache wc e).lowerBoundCapacity = wc.lowerBoundCapacity ∧
    (updateCache wc e).upperBoundCapacity = wc.upperBoundCapacity := by
  simp only [updateCache]
  split <;> exact ⟨(resize_bounds wc _).1, (resize_bounds wc _).2⟩

theorem processEvent_bounds (wc : WatchCache) (ty : EventType) (e : StoreElement) (rv : Nat)
    (now : Int) :
    (processEvent wc ty e rv now).1.lowerBoundCapacity = wc.lowerBoundCapacity ∧
    (processEvent wc ty e rv now).1.upperBoundCapacity = wc.upperBoundCapacity := by
  simp only [processEvent]
  split <;> exact ⟨(updateCache_bounds wc _).1, (updateCache_bounds wc _).2⟩

theorem listPage_fields (wc : WatchCache) (rrv : Nat) (key : String) (limit : Int)
    (tok : Option ContinueToken) :
    (waitUntilFreshAndList wc rrv key limit tok).1.capacity = wc.capacity ∧
    (waitUntilFreshAndList wc rrv key limit tok).1.lowerBoundCapacity = wc.lowerBoundCapacity ∧
    (waitUntilFreshAndList wc rrv key limit tok).1.upperBoundCapacity = wc.upperBoundCapacity := by
  rcases listPage_cases wc rrv key limit tok with h | h <;> rw [h] <;> exact ⟨rfl, rfl, rfl⟩

theorem grow_min_cases (k : Nat) (hk : k ≤ 10)
    (hlt : 100 * 2 ^ k < min (100 * 2 ^ k * 2) 102400) :
    min (100 * 2 ^ k * 2) 102400 = 2 * (100 * 2 ^ k) ∧
    ∃ j, j ≤ 10 ∧ min (100 * 2 ^ k * 2) 102400 = 100 * 2 ^ j := by
  rcases Nat.lt_or_ge k 10 with hk' | hk'
  · have h9 : (2 : Nat) ^ k ≤ 2 ^ 9 := Nat.pow_le_pow_right (by norm_num) (by omega)
    have h2 : 100 * 2 ^ k * 2 ≤ 102400 := by
      have : (2 : Nat) ^ 9 = 512 := by norm_num
      omega
    rw [Nat.min_eq_left h2]
    refine ⟨by ring, k + 1, by omega, by ring⟩
  · have hke : k = 10 := by omega
    subst hke
    norm_num at hlt

theorem shrink_max_cases (k : Nat) (hk : k ≤ 10)
    (hlt : max (100 * 2 ^ k / 2) 100 < 100 * 2 ^ k) :
    max (100 * 2 ^ k / 2) 100 = 100 * 2 ^ k / 2 ∧
    ∃ j, j ≤ 10 ∧ max (100 * 2 ^ k / 2) 100 = 100 * 2 ^ j := by
  cases k with
  | zero => norm_num at hlt
  | succ k' =>
    have hpow : (2 : Nat) ^ (k' + 1) = 2 ^ k' * 2 := by rw [pow_succ]
    have hdiv : 100 * 2 ^ (k' + 1) / 2 = 100 * 2 ^ k' := by
      rw [hpow, ← Nat.mul_assoc]
      exact Nat.mul_div_cancel _ (by norm_num)
    have hge : 100 ≤ 100 * 2 ^ k' := by
      have : 1 ≤ (2 : Nat) ^ k' := Nat.one_le_two_pow
      omega
    rw [hdiv, Nat.max_eq_left hge]
    exact ⟨rfl, k', by omega, rfl⟩

theorem resize_capacity_cases (wc : WatchCache) (t : Int) :
    (resizeCacheLocked wc t).capacity = wc.capacity ∨
    ((resizeCacheLocked wc t).capacity = min (wc.capacity * 2) wc.upperBoundCapacity ∧
      wc.capacity < min (wc.capacity * 2) wc.upperBoundCapacity) ∨
    ((resizeCacheLocked wc t).capacity = max (wc.capacity / 2) wc.lowerBoundCapacity ∧
      max (wc.capacity / 2) wc.lowerBoundCapacity < wc.capacity) := by
  simp only [resizeCacheLocked, doCacheResizeLocked]
  split_ifs
  all_goals
    first
    | exact Or.inl rfl
    | exact Or.inr (Or.inl ⟨rfl, by omega⟩)
    | exact Or.inr (Or.inr ⟨rfl, by omega⟩)

theorem resize_capInv_step (wc : WatchCache) (t : Int) (h : CapInv wc) :
    CapInv (resizeCacheLocked wc t) ∧
    ((resizeCacheLocked wc t).capacity = wc.capacity ∨
     (resizeCacheLocked wc t).capacity = 2 * wc.capacity ∨
     (resizeCacheLocked wc t).capacity = wc.capacity / 2) := by
  obtain ⟨hl, hu, k, hk, hc⟩ := h
  obtain ⟨hbl, hbu⟩ := resize_bounds wc t
  rcases resize_capacity_cases wc t with hcap | ⟨hcap, hlt⟩ | ⟨hcap, hlt⟩
  · exact ⟨⟨by rw [hbl, hl], by rw [hbu, hu], k, hk, by rw [hcap, hc]⟩, Or.inl hcap⟩
  · rw [hu, hc] at hlt
    obtain ⟨hmin, j, hj, hjc⟩ := grow_min_cases k hk hlt
    refine ⟨⟨by rw [hbl, hl], by rw [hbu, hu], j, hj, ?_⟩, Or.inr (Or.inl ?_)⟩
    · rw [hcap, hu, hc]
      exact hjc
    · rw [hcap, hu, hc]
      exact hmin
  · rw [hl, hc] at hlt
    obtain ⟨hmax, j, hj, hjc⟩ := shrink_max_cases k hk hlt
    refine ⟨⟨by rw [hbl, hl], by rw [hbu, hu], j, hj, ?_⟩, Or.inr (Or.inr ?_)⟩
    · rw [hcap, hl, hc]
      exact hjc
    · rw [hcap, hl, hc]
      exact hmax

theorem applyOp_capInv (wc : WatchCache) (op : WCOp) (h : CapInv wc) :
    CapInv (applyOp wc op) ∧
    ((applyOp wc op).capacity = wc.capacity ∨
     (applyOp wc op).capacity = 2 * wc.capacity ∨
     (applyOp wc op).capacity = wc.capacity / 2) := by
  obtain ⟨hl, hu, k, hk, hc⟩ := h
  cases op with
  | event ty elem rv now =>
    simp only [applyOp]
    obtain ⟨t, hcap⟩ := processEvent_capacity wc ty elem rv now
    obtain ⟨hbl, hbu⟩ := processEvent_bounds wc ty elem rv now
    obtain ⟨⟨hl', hu', j, hj, hjc⟩, hopts⟩ := resize_capInv_step wc t ⟨hl, hu, k, hk, hc⟩
    refine ⟨⟨?_, ?_, j, hj, ?_⟩, ?_⟩
    · rw [hbl, hl]
    · rw [hbu, hu]
    · rw [hcap]
      exact hjc
    · rw [hcap]
      exact hopts
  | replace elems rv =>
    exact ⟨⟨hl, hu, k, hk, hc⟩, Or.inl rfl⟩
  | updateRV rv =>
    exact ⟨⟨hl, hu, k, hk, hc⟩, Or.inl rfl⟩
  | listPage rrv key limit tok =>
    simp only [applyOp]
    obtain ⟨hcp, hbl, hbu⟩ := listPage_fields wc rrv key limit tok
    refine ⟨⟨?_, ?_, k, hk, ?_⟩, Or.inl hcp⟩
    · rw [hbl, hl]
    · rw [hbu, hu]
    · rw [hcp, hc]

theorem runOps_capInv : ∀ (ops : List WCOp) (wc : WatchCache), CapInv wc →
    CapInv (runOps wc ops) := by
  intro ops
  induction ops with
  | nil => intro wc h; exact h
  | cons op ops ih =>
    intro wc h
    exact ih (applyOp wc op) (applyOp_capInv wc op h).1

/-- Claim C9: after every operation sequence from the initial state, the
ring capacity stays within [100, 102400] and is 100 times a power of two
(starting at 100 * 2^0); any single further operation leaves the capacity
unchanged or changes it by exactly a factor of 2. -/
theorem c9_capacity_invariant (ops : List WCOp) :
    (100 ≤ (runOps initialWatchCache ops).capacity
      ∧ (runOps initialWatchCache ops).capacity ≤ 102400
      ∧ ∃ k, k ≤ 10 ∧ (runOps initialWatchCache ops).capacity = 100 * 2 ^ k)
    ∧ ∀ op : WCOp,
        (runOps initialWatchCache (ops ++ [op])).capacity
            = (runOps initialWatchCache ops).capacity
        ∨ (runOps initialWatchCache (ops ++ [op])).capacity
            = 2 * (runOps initialWatchCache ops).capacity
        ∨ (runOps initialWatchCache (ops ++ [op])).capacity
            = (runOps initialWatchCache ops).capacity / 2 := by
  have hinit : CapInv initialWatchCache :=
    ⟨rfl, rfl, 0, by omega, by norm_num [initialWatchCache, defaultLowerBoundCapacity]⟩
  have hinv := runOps_capInv ops initialWatchCache hinit
  constructor
  · obtain ⟨_, _, k, hk, hc⟩ := hinv
    refine ⟨?_, ?_, k, hk, hc⟩
    · rw [hc]
      have : 1 ≤ (2 : Nat) ^ k := Nat.one_le_two_pow
      omega
    · rw [hc]
      have : (2 : Nat) ^ k ≤ 2 ^ 10 := Nat.pow_le_pow_right (by norm_num) hk
      have h10 : (2 : Nat) ^ 10 = 1024 := by norm_num
      omega
  · intro op
    have hfold : runOps initialWatchCache (ops ++ [op])
        = applyOp (runOps initialWatchCache ops) op := by
      simp [runOps, List.foldl_append]
    rw [hfold]
    exact (applyOp_capInv _ op hinv).2

end WatchCacheModel
